import Mathlib

/-!
Verification of the MutaGate mutation-testing quality gate against its
natural-language specification.

The development shallowly embeds the two core source files:

* `src/mutators.py` — the AST-based mutant generator (`apply_mutations`,
  `_collect_sites`, `_apply_site`, `_label`, and the operator tables
  `ARITH`, `CMP`, `BOOL`, `SUGGESTIONS`);
* `src/mutagate.py` — the evaluation pipeline (`test_mutant`,
  `run_mutation_testing`).

Modelling conventions:

* The Python AST (module `ast`) is modelled by the inductive types below,
  restricted to the node kinds the generator inspects (`BinOp`, `Compare`,
  `BoolOp`, `Return`, `If`) plus enough surrounding kinds (`Module`,
  `FunctionDef`, `Assign`, expression statements, `Name`, `Constant`,
  `UnaryOp`) to build the concrete programs the source's own tests use.
* `_label` assigns each walked node a fresh id `_mid`, used only to locate
  the structurally-same node inside a fresh copy of the tree; `_apply_site`
  relies solely on the labelling being deterministic and injective.  The
  model realises the same mechanism by numbering nodes in depth-first
  preorder with an explicit counter (`ast.walk` enumerates breadth-first,
  and also yields operator-token nodes, `Name` assignment targets and
  `arguments` nodes, none of which carry a catalog rule or, for the token
  nodes, a line number; eliding them changes node numbers but no observable
  output except the order in which sites of one tree are emitted, on which
  no claim depends).
* Machine floats of the pipeline (`threshold`, kill rate) are modelled as
  rationals; every concrete instance used below was checked to behave
  identically under Python float arithmetic.
* External collaborators (`ast.parse`, `ast.unparse`, the file system and
  the test subprocess) are inputs of the embedded functions: a parser is a
  function `String → Option PyModule`, an unparser `PyModule → Option
  String`, the file system a map `String → Option String`, and one
  subprocess invocation is summarised by its observable `RunOutcome`.
-/

/-! ## Operator tables (src/mutators.py lines 5-10) -/

/-- Arithmetic binary operator node kinds (`ast.Add`, `ast.Sub`, `ast.Mult`,
`ast.Div`, plus `ast.Pow` as a representative operator outside the `ARITH`
table). -/
inductive Aop where
  | add | sub | mult | div | pow
deriving DecidableEq

/-- Comparison operator node kinds (`ast.Lt`, `ast.LtE`, `ast.Gt`, `ast.GtE`,
`ast.Eq`, `ast.NotEq`, plus `ast.Is` and `ast.In` as representatives outside
the `CMP` table). -/
inductive Cop where
  | lt | ltE | gt | gtE | eq | notEq | isOp | inOp
deriving DecidableEq

/-- Boolean operator node kinds (`ast.And`, `ast.Or`). -/
inductive Bop where
  | andOp | orOp
deriving DecidableEq

/-- Unary operator node kinds (`ast.Not`, `ast.USub`). -/
inductive Uop where
  | notOp | usub
deriving DecidableEq

/-- `ARITH = {Add: Sub, Sub: Add, Mult: Div, Div: Mult}`; a dictionary,
modelled as a partial map (`none` = key absent). -/
def ARITH : Aop → Option Aop
  | .add => some .sub
  | .sub => some .add
  | .mult => some .div
  | .div => some .mult
  | .pow => none

/-- `CMP = {Lt: LtE, LtE: Lt, Gt: GtE, GtE: Gt, Eq: NotEq, NotEq: Eq}`. -/
def CMP : Cop → Option Cop
  | .lt => some .ltE
  | .ltE => some .lt
  | .gt => some .gtE
  | .gtE => some .gt
  | .eq => some .notEq
  | .notEq => some .eq
  | .isOp => none
  | .inOp => none

/-- `BOOL = {And: Or, Or: And}`. -/
def BOOL : Bop → Option Bop
  | .andOp => some .orOp
  | .orOp => some .andOp

/-- Python class name of an arithmetic operator, as used in the f-string
building a site's description. -/
def Aop.pyName : Aop → String
  | .add => "Add"
  | .sub => "Sub"
  | .mult => "Mult"
  | .div => "Div"
  | .pow => "Pow"

/-- Python class name of a comparison operator. -/
def Cop.pyName : Cop → String
  | .lt => "Lt"
  | .ltE => "LtE"
  | .gt => "Gt"
  | .gtE => "GtE"
  | .eq => "Eq"
  | .notEq => "NotEq"
  | .isOp => "Is"
  | .inOp => "In"

/-- Python class name of a boolean operator. -/
def Bop.pyName : Bop → String
  | .andOp => "And"
  | .orOp => "Or"

/-! ## The Python AST fragment (subject language of src/mutators.py) -/

mutual

/-- Expression nodes.  Every expression node carries its source line number
(`lineno`). -/
inductive Expr where
  | name (lineno : Nat) (id : String) : Expr
  | const (lineno : Nat) (value : Int) : Expr
  | constNone (lineno : Nat) : Expr
  | binOp (lineno : Nat) (left : Expr) (op : Aop) (right : Expr) : Expr
  | boolOp (lineno : Nat) (op : Bop) (values : ExprList) : Expr
  | compare (lineno : Nat) (left : Expr) (ops : List Cop) (comparators : ExprList) : Expr
  | unaryOp (lineno : Nat) (op : Uop) (operand : Expr) : Expr

/-- A list of expressions (spelled out so that the mutual recursion below is
structural). -/
inductive ExprList where
  | nil : ExprList
  | cons (head : Expr) (tail : ExprList) : ExprList

/-- Statement nodes.  `ret` is `ast.Return` with its optional value;
`ifS` is `ast.If`; `funcDef` is `ast.FunctionDef` (decorator and argument
children elided: they never match a catalog rule). -/
inductive Stmt where
  | assign (lineno : Nat) (target : String) (value : Expr) : Stmt
  | ret (lineno : Nat) (value : Option Expr) : Stmt
  | ifS (lineno : Nat) (test : Expr) (body : StmtList) (orelse : StmtList) : Stmt
  | funcDef (lineno : Nat) (fname : String) (body : StmtList) : Stmt
  | exprS (lineno : Nat) (value : Expr) : Stmt

/-- A list of statements. -/
inductive StmtList where
  | nil : StmtList
  | cons (head : Stmt) (tail : StmtList) : StmtList

end

/-- `ast.Module`: the tree root; carries no line number. -/
structure PyModule where
  body : StmtList

mutual

/-- Number of modelled nodes in an expression subtree (the node itself plus
its descendants); drives the preorder numbering. -/
def sizeE : Expr → Nat
  | .name _ _ => 1
  | .const _ _ => 1
  | .constNone _ => 1
  | .binOp _ l _ r => 1 + sizeE l + sizeE r
  | .boolOp _ _ vs => 1 + sizeEL vs
  | .compare _ l _ comps => 1 + sizeE l + sizeEL comps
  | .unaryOp _ _ od => 1 + sizeE od

/-- Total size of an expression list. -/
def sizeEL : ExprList → Nat
  | .nil => 0
  | .cons e es => sizeE e + sizeEL es

/-- Number of modelled nodes in a statement subtree. -/
def sizeS : Stmt → Nat
  | .assign _ _ v => 1 + sizeE v
  | .ret _ none => 1
  | .ret _ (some v) => 1 + sizeE v
  | .ifS _ t b o => 1 + sizeE t + sizeSL b + sizeSL o
  | .funcDef _ _ b => 1 + sizeSL b
  | .exprS _ v => 1 + sizeE v

/-- Total size of a statement list. -/
def sizeSL : StmtList → Nat
  | .nil => 0
  | .cons s ss => sizeS s + sizeSL ss

end

mutual

/-- Structural (boolean) equality of expressions. -/
def beqE : Expr → Expr → Bool
  | .name ln i, .name ln' i' => ln == ln' && i == i'
  | .const ln v, .const ln' v' => ln == ln' && v == v'
  | .constNone ln, .constNone ln' => ln == ln'
  | .binOp ln l op r, .binOp ln' l' op' r' => ln == ln' && beqE l l' && op == op' && beqE r r'
  | .boolOp ln op vs, .boolOp ln' op' vs' => ln == ln' && op == op' && beqEL vs vs'
  | .compare ln l ops cs, .compare ln' l' ops' cs' =>
      ln == ln' && beqE l l' && ops == ops' && beqEL cs cs'
  | .unaryOp ln op od, .unaryOp ln' op' od' => ln == ln' && op == op' && beqE od od'
  | _, _ => false

/-- Structural equality of expression lists. -/
def beqEL : ExprList → ExprList → Bool
  | .nil, .nil => true
  | .cons e es, .cons f fs => beqE e f && beqEL es fs
  | _, _ => false

/-- Structural equality of statements. -/
def beqS : Stmt → Stmt → Bool
  | .assign ln t v, .assign ln' t' v' => ln == ln' && t == t' && beqE v v'
  | .ret ln none, .ret ln' none => ln == ln'
  | .ret ln (some v), .ret ln' (some v') => ln == ln' && beqE v v'
  | .ifS ln t b o, .ifS ln' t' b' o' => ln == ln' && beqE t t' && beqSL b b' && beqSL o o'
  | .funcDef ln n b, .funcDef ln' n' b' => ln == ln' && n == n' && beqSL b b'
  | .exprS ln v, .exprS ln' v' => ln == ln' && beqE v v'
  | _, _ => false

/-- Structural equality of statement lists. -/
def beqSL : StmtList → StmtList → Bool
  | .nil, .nil => true
  | .cons s ss, .cons t ts => beqS s t && beqSL ss ts
  | _, _ => false

end

mutual

theorem beqE_refl : ∀ e : Expr, beqE e e = true
  | .name ln i => by simp [beqE]
  | .const ln v => by simp [beqE]
  | .constNone ln => by simp [beqE]
  | .binOp ln l op r => by simp [beqE, beqE_refl l, beqE_refl r]
  | .boolOp ln op vs => by simp [beqE, beqEL_refl vs]
  | .compare ln l ops cs => by simp [beqE, beqE_refl l, beqEL_refl cs]
  | .unaryOp ln op od => by simp [beqE, beqE_refl od]

theorem beqEL_refl : ∀ es : ExprList, beqEL es es = true
  | .nil => by simp [beqEL]
  | .cons e es => by simp [beqEL, beqE_refl e, beqEL_refl es]

theorem beqS_refl : ∀ s : Stmt, beqS s s = true
  | .assign ln t v => by simp [beqS, beqE_refl v]
  | .ret ln none => by simp [beqS]
  | .ret ln (some v) => by simp [beqS, beqE_refl v]
  | .ifS ln t b o => by simp [beqS, beqE_refl t, beqSL_refl b, beqSL_refl o]
  | .funcDef ln n b => by simp [beqS, beqSL_refl b]
  | .exprS ln v => by simp [beqS, beqE_refl v]

theorem beqSL_refl : ∀ ss : StmtList, beqSL ss ss = true
  | .nil => by simp [beqSL]
  | .cons s ss => by simp [beqSL, beqS_refl s, beqSL_refl ss]

end

/-- C7: The operator-rewrite catalog performs exactly the paired swaps the
spec lists — Add↔Sub and Mult↔Div for arithmetic, Lt↔LtE, Gt↔GtE, Eq↔NotEq
for comparison (adjacent-operator swaps, not full boolean negation), And↔Or
for boolean — so each rewrite map is an involution: applying the catalog's
swap to the result of a swap yields the original operator. -/
theorem catalog_swaps_involutive :
    ARITH .add = some .sub ∧ ARITH .sub = some .add ∧
    ARITH .mult = some .div ∧ ARITH .div = some .mult ∧
    CMP .lt = some .ltE ∧ CMP .ltE = some .lt ∧
    CMP .gt = some .gtE ∧ CMP .gtE = some .gt ∧
    CMP .eq = some .notEq ∧ CMP .notEq = some .eq ∧
    BOOL .andOp = some .orOp ∧ BOOL .orOp = some .andOp ∧
    (∀ a : Aop, (ARITH a).bind ARITH = (ARITH a).map fun _ => a) ∧
    (∀ c : Cop, (CMP c).bind CMP = (CMP c).map fun _ => c) ∧
    (∀ b : Bop, (BOOL b).bind BOOL = (BOOL b).map fun _ => b) := by
  refine ⟨rfl, rfl, rfl, rfl, rfl, rfl, rfl, rfl, rfl, rfl, rfl, rfl, ?_, ?_, ?_⟩
  · intro a; cases a <;> rfl
  · intro c; cases c <;> rfl
  · intro b; cases b <;> rfl

/-! ## Mutation sites (src/mutators.py `_collect_sites`, lines 24-58) -/

/-- The third component of a Python site tuple `("op", new_t)`,
`("cmp", i, new_t)`, `("ret",)` or `("negate",)`.  `("op", new_t)` carries
either an arithmetic or a boolean replacement class. -/
inductive Mutation where
  | op (newOp : Sum Aop Bop)
  | cmp (idx : Nat) (newOp : Cop)
  | ret
  | negate
deriving DecidableEq

/-- One entry of the list built by `_collect_sites`: the tuple
`(mid, ln, operator, description, mutation)`. -/
structure Site where
  mid : Nat
  line : Nat
  operator : String
  description : String
  mutation : Mutation
deriving DecidableEq

/-- The node filter of `_collect_sites` (line 27):
`if ln is None or (target_lines and ln not in target_lines): continue`.
A node is eligible when that guard does not fire, i.e. when `target_lines`
is absent or falsy (`None` or the empty set) or contains the line.  Nodes
without a line number never reach the catalog match in the model because
only `Module` lacks one and `Module` matches no rule. -/
def eligible (target_lines : Option (List Nat)) (ln : Nat) : Bool :=
  match target_lines with
  | none => true
  | some l => l.isEmpty || l.contains ln

/-- Comparison sites of one `Compare` node: `for i, op in enumerate(node.ops):
if type(op) in CMP: ... sites.append((mid, ln, "comparison", f"... -> ...",
("cmp", i, new_t)))`.  `c` is the node's id, `ln` its line, `i` the index of
the first operator of `ops` in the whole chain. -/
def cmpSites (c ln : Nat) : List Cop → Nat → List Site
  | [], _ => []
  | op :: rest, i =>
      (match CMP op with
       | some newT =>
          [⟨c, ln, "comparison", op.pyName ++ " -> " ++ newT.pyName, .cmp i newT⟩]
       | none => []) ++ cmpSites c ln rest (i + 1)

/-- Sites contributed by a single expression node (the catalog matches of
`_collect_sites` for `BinOp`, `Compare` and `BoolOp`), given the node's
preorder id `c`.  Empty when the node is not eligible. -/
def exprSites (elig : Nat → Bool) (e : Expr) (c : Nat) : List Site :=
  match e with
  | .binOp ln _ op _ =>
      if elig ln then
        match ARITH op with
        | some newT =>
            [⟨c, ln, "arithmetic", op.pyName ++ " -> " ++ newT.pyName, .op (.inl newT)⟩]
        | none => []
      else []
  | .compare ln _ ops _ => if elig ln then cmpSites c ln ops 0 else []
  | .boolOp ln op _ =>
      if elig ln then
        match BOOL op with
        | some newT =>
            [⟨c, ln, "boolean", op.pyName ++ " -> " ++ newT.pyName, .op (.inr newT)⟩]
        | none => []
      else []
  | _ => []

/-- Sites contributed by a single statement node (the `Return` and `If`
matches of `_collect_sites`). -/
def stmtSites (elig : Nat → Bool) (s : Stmt) (c : Nat) : List Site :=
  match s with
  | .ret ln (some _) =>
      if elig ln then [⟨c, ln, "return_value", "return value -> return None", .ret⟩] else []
  | .ifS ln _ _ _ =>
      if elig ln then [⟨c, ln, "negate_cond", "if cond -> if not cond", .negate⟩] else []
  | _ => []

mutual

/-- Collect the sites of an expression subtree whose root has preorder id
`c`; returns the sites together with the id following the subtree. -/
def collectE (elig : Nat → Bool) (e : Expr) (c : Nat) : List Site × Nat :=
  match e with
  | .name _ _ => ([], c + 1)
  | .const _ _ => ([], c + 1)
  | .constNone _ => ([], c + 1)
  | .binOp ln l op r =>
      let p1 := collectE elig l (c + 1)
      let p2 := collectE elig r p1.2
      (exprSites elig (.binOp ln l op r) c ++ p1.1 ++ p2.1, p2.2)
  | .boolOp ln op vs =>
      let p := collectEL elig vs (c + 1)
      (exprSites elig (.boolOp ln op vs) c ++ p.1, p.2)
  | .compare ln l ops cs =>
      let p1 := collectE elig l (c + 1)
      let p2 := collectEL elig cs p1.2
      (exprSites elig (.compare ln l ops cs) c ++ p1.1 ++ p2.1, p2.2)
  | .unaryOp _ _ od =>
      let p := collectE elig od (c + 1)
      (p.1, p.2)

/-- Collect the sites of each expression of a list, threading the id. -/
def collectEL (elig : Nat → Bool) (es : ExprList) (c : Nat) : List Site × Nat :=
  match es with
  | .nil => ([], c)
  | .cons e rest =>
      let p1 := collectE elig e c
      let p2 := collectEL elig rest p1.2
      (p1.1 ++ p2.1, p2.2)

/-- Collect the sites of a statement subtree whose root has preorder id `c`. -/
def collectS (elig : Nat → Bool) (s : Stmt) (c : Nat) : List Site × Nat :=
  match s with
  | .assign _ _ v =>
      let p := collectE elig v (c + 1)
      (p.1, p.2)
  | .ret _ none => ([], c + 1)
  | .ret ln (some v) =>
      let p := collectE elig v (c + 1)
      (stmtSites elig (.ret ln (some v)) c ++ p.1, p.2)
  | .ifS ln t b o =>
      let p1 := collectE elig t (c + 1)
      let p2 := collectSL elig b p1.2
      let p3 := collectSL elig o p2.2
      (stmtSites elig (.ifS ln t b o) c ++ p1.1 ++ p2.1 ++ p3.1, p3.2)
  | .funcDef _ _ b =>
      let p := collectSL elig b (c + 1)
      (p.1, p.2)
  | .exprS _ v =>
      let p := collectE elig v (c + 1)
      (p.1, p.2)

/-- Collect the sites of each statement of a list, threading the id. -/
def collectSL (elig : Nat → Bool) (ss : StmtList) (c : Nat) : List Site × Nat :=
  match ss with
  | .nil => ([], c)
  | .cons s rest =>
      let p1 := collectS elig s c
      let p2 := collectSL elig rest p1.2
      (p1.1 ++ p2.1, p2.2)

end

/-- `_collect_sites(tree, target_lines)`: the module root takes id 0 (it has
no line number and matches no rule), its body is numbered from 1. -/
def collect_sites (tree : PyModule) (target_lines : Option (List Nat)) : List Site :=
  (collectSL (eligible target_lines) tree.body 1).1

/-! ## Applying a site (src/mutators.py `_apply_site`, lines 61-75) -/

/-- The local rewrite `_apply_site` performs once it has found the node:
`node.op = mutation[1]()` for `"op"`, `node.ops[i] = ...` for `"cmp"`.
A mutation kind that does not fit the node's shape is modelled as the
identity; it is unreachable for sites produced by `_collect_sites`. -/
def rewriteE (e : Expr) (mu : Mutation) : Expr :=
  match e, mu with
  | .binOp ln l _ r, .op (.inl newOp) => .binOp ln l newOp r
  | .boolOp ln _ vs, .op (.inr newOp) => .boolOp ln newOp vs
  | .compare ln l ops cs, .cmp i newOp => .compare ln l (ops.set i newOp) cs
  | e, _ => e

/-- The statement-level rewrites of `_apply_site`:
`node.value = ast.Constant(value=None)` for `"ret"` and
`node.test = ast.UnaryOp(op=ast.Not(), operand=node.test)` for `"negate"`.
The synthesized nodes carry the line number `ast.fix_missing_locations`
copies onto them (the parent statement's). -/
def rewriteS (s : Stmt) (mu : Mutation) : Stmt :=
  match s, mu with
  | .ret ln _, .ret => .ret ln (some (.constNone ln))
  | .ifS ln t b o, .negate => .ifS ln (.unaryOp ln .notOp t) b o
  | s, _ => s

mutual

/-- Walk an expression subtree whose root has preorder id `c`, rewriting the
node whose id equals `mid` (if it lies in this subtree); returns the new
subtree and the id following the subtree.  Mirrors the `_mid`-search loop of
`_apply_site` on a freshly relabelled copy. -/
def applyE (e : Expr) (c mid : Nat) (mu : Mutation) : Expr × Nat :=
  if c = mid then (rewriteE e mu, c + sizeE e)
  else
    match e with
    | .name ln i => (.name ln i, c + 1)
    | .const ln v => (.const ln v, c + 1)
    | .constNone ln => (.constNone ln, c + 1)
    | .binOp ln l op r =>
        let p1 := applyE l (c + 1) mid mu
        let p2 := applyE r p1.2 mid mu
        (.binOp ln p1.1 op p2.1, p2.2)
    | .boolOp ln op vs =>
        let p := applyEL vs (c + 1) mid mu
        (.boolOp ln op p.1, p.2)
    | .compare ln l ops cs =>
        let p1 := applyE l (c + 1) mid mu
        let p2 := applyEL cs p1.2 mid mu
        (.compare ln p1.1 ops p2.1, p2.2)
    | .unaryOp ln op od =>
        let p := applyE od (c + 1) mid mu
        (.unaryOp ln op p.1, p.2)

/-- Walk an expression list, threading the id. -/
def applyEL (es : ExprList) (c mid : Nat) (mu : Mutation) : ExprList × Nat :=
  match es with
  | .nil => (.nil, c)
  | .cons e rest =>
      let p1 := applyE e c mid mu
      let p2 := applyEL rest p1.2 mid mu
      (.cons p1.1 p2.1, p2.2)

/-- Walk a statement subtree whose root has preorder id `c`, rewriting the
node with id `mid`. -/
def applyS (s : Stmt) (c mid : Nat) (mu : Mutation) : Stmt × Nat :=
  if c = mid then (rewriteS s mu, c + sizeS s)
  else
    match s with
    | .assign ln t v =>
        let p := applyE v (c + 1) mid mu
        (.assign ln t p.1, p.2)
    | .ret ln none => (.ret ln none, c + 1)
    | .ret ln (some v) =>
        let p := applyE v (c + 1) mid mu
        (.ret ln (some p.1), p.2)
    | .ifS ln t b o =>
        let p1 := applyE t (c + 1) mid mu
        let p2 := applySL b p1.2 mid mu
        let p3 := applySL o p2.2 mid mu
        (.ifS ln p1.1 p2.1 p3.1, p3.2)
    | .funcDef ln n b =>
        let p := applySL b (c + 1) mid mu
        (.funcDef ln n p.1, p.2)
    | .exprS ln v =>
        let p := applyE v (c + 1) mid mu
        (.exprS ln p.1, p.2)

/-- Walk a statement list, threading the id. -/
def applySL (ss : StmtList) (c mid : Nat) (mu : Mutation) : StmtList × Nat :=
  match ss with
  | .nil => (.nil, c)
  | .cons s rest =>
      let p1 := applyS s c mid mu
      let p2 := applySL rest p1.2 mid mu
      (.cons p1.1 p2.1, p2.2)

end

/-- `_apply_site(tc, mid, mutation)` on a fresh copy `tc` of the tree, after
`_label(tc)` reproduced the original numbering (the copy is structurally
identical, so the deterministic numbering agrees); the module root has id 0
and is never a site. -/
def apply_site (tree : PyModule) (mid : Nat) (mu : Mutation) : PyModule :=
  ⟨(applySL tree.body 1 mid mu).1⟩

/-! ## apply_mutations (src/mutators.py lines 78-98) -/

/-- `SUGGESTIONS.get(operator, "")` over the static table of
src/mutators.py lines 12-18. -/
def suggestionFor (operator : String) : String :=
  if operator = "arithmetic" then "Add assertion checking the computed result value"
  else if operator = "comparison" then "Add boundary/edge-case tests (off-by-one values)"
  else if operator = "return_value" then "Assert the return value explicitly, don't just call the function"
  else if operator = "boolean" then "Test both true and false branches of this condition"
  else if operator = "negate_cond" then "Ensure tests cover both outcomes of this conditional"
  else ""

/-- One element of the list `apply_mutations` returns: the dict
`{"code": ..., "line": ..., "operator": ..., "description": ...,
"suggestion": ...}`. -/
structure Mutant where
  code : String
  line : Nat
  operator : String
  description : String
  suggestion : String
deriving DecidableEq

/-- The per-tree loop of `apply_mutations` (lines 84-97): collect the sites,
then for each site deep-copy the tree, relabel the copy, apply the single
site, fix locations and unparse; a site whose serialization fails
(`except Exception: continue`) is skipped.  The serializer `ast.unparse` is
an external collaborator, passed in as `unparse`. -/
def mutateTree (unparse : PyModule → Option String) (tree : PyModule)
    (target_lines : Option (List Nat)) : List Mutant :=
  (collect_sites tree target_lines).filterMap fun s =>
    (unparse (apply_site tree s.mid s.mutation)).map fun code =>
      { code := code, line := s.line, operator := s.operator,
        description := s.description, suggestion := suggestionFor s.operator }

/-- `apply_mutations(source, target_lines)` (lines 78-98): parse the source
(`ast.parse` is the external Syntax Model Adapter, passed in as `parse`);
on parse failure (`except SyntaxError`) return the empty list, otherwise
generate one mutant per collected site. -/
def apply_mutations (parse : String → Option PyModule)
    (unparse : PyModule → Option String) (source : String)
    (target_lines : Option (List Nat)) : List Mutant :=
  match parse source with
  | none => []
  | some tree => mutateTree unparse tree target_lines

/-! ## Concrete instances for counterexamples and witnesses -/

/-- A trivial serializer used to instantiate the external `ast.unparse`
collaborator at concrete inputs; the claims never depend on the produced
text, only on serialization succeeding. -/
def unparse0 : PyModule → Option String := fun _ => some ""

/-- A parser stub that fails on every input, instantiating `ast.parse` on a
syntactically invalid source. -/
def parseFail : String → Option PyModule := fun _ => none

/-- The tree `ast.parse "x = 1 + 2\n"` : a single assignment on line 1 whose
value is `BinOp(Constant 1, Add, Constant 2)`. -/
def xAssignTree : PyModule :=
  ⟨.cons (.assign 1 "x" (.binOp 1 (.const 1 1) .add (.const 1 2))) .nil⟩

/-- The tree `ast.parse "def calc(a, b):\n    return a + b\n"`. -/
def calcTree : PyModule :=
  ⟨.cons (.funcDef 1 "calc"
      (.cons (.ret 2 (some (.binOp 2 (.name 2 "a") .add (.name 2 "b")))) .nil)) .nil⟩

/-! ## The single-point mutation relation (formalising claim C6) -/

/-- `ops'` is `ops` with exactly one operator replaced by its `CMP` partner. -/
def cmpListOneSwap : List Cop → List Cop → Bool
  | a :: as, b :: bs => (CMP a == some b && as == bs) || (a == b && cmpListOneSwap as bs)
  | _, _ => false

mutual

/-- `e'` is `e` with exactly one catalog rewrite applied at exactly one node
of the subtree. -/
def oneRewriteE : Expr → Expr → Bool
  | .binOp ln l op r, .binOp ln' l' op' r' =>
      ln == ln' &&
      ((ARITH op == some op' && beqE l l' && beqE r r')
       || (op == op' && ((oneRewriteE l l' && beqE r r') || (beqE l l' && oneRewriteE r r'))))
  | .boolOp ln op vs, .boolOp ln' op' vs' =>
      ln == ln' &&
      ((BOOL op == some op' && beqEL vs vs') || (op == op' && oneRewriteEL vs vs'))
  | .compare ln l ops cs, .compare ln' l' ops' cs' =>
      ln == ln' &&
      ((cmpListOneSwap ops ops' && beqE l l' && beqEL cs cs')
       || (ops == ops' && ((oneRewriteE l l' && beqEL cs cs') || (beqE l l' && oneRewriteEL cs cs'))))
  | .unaryOp ln op od, .unaryOp ln' op' od' => ln == ln' && op == op' && oneRewriteE od od'
  | _, _ => false

/-- Exactly one expression of the list carries exactly one rewrite. -/
def oneRewriteEL : ExprList → ExprList → Bool
  | .cons e es, .cons f fs => (oneRewriteE e f && beqEL es fs) || (beqE e f && oneRewriteEL es fs)
  | _, _ => false

/-- `s'` is `s` with exactly one catalog rewrite applied at exactly one node:
either the statement itself is rewritten (`Return` value nullified, `If` test
negated) or exactly one descendant carries the rewrite. -/
def oneRewriteS : Stmt → Stmt → Bool
  | .assign ln t v, .assign ln' t' v' => ln == ln' && t == t' && oneRewriteE v v'
  | .ret ln v, .ret ln' v' =>
      ln == ln' &&
      (match v, v' with
       | u, some w =>
          beqE w (.constNone ln)
          || (match u with
              | some u0 => oneRewriteE u0 w
              | none => false)
       | _, none => false)
  | .ifS ln t b o, .ifS ln' t' b' o' =>
      ln == ln' &&
      ((beqE t' (.unaryOp ln .notOp t) && beqSL b b' && beqSL o o')
       || (oneRewriteE t t' && beqSL b b' && beqSL o o')
       || (beqE t t' && oneRewriteSL b b' && beqSL o o')
       || (beqE t t' && beqSL b b' && oneRewriteSL o o'))
  | .funcDef ln n b, .funcDef ln' n' b' => ln == ln' && n == n' && oneRewriteSL b b'
  | .exprS ln v, .exprS ln' v' => ln == ln' && oneRewriteE v v'
  | _, _ => false

/-- Exactly one statement of the list carries exactly one rewrite. -/
def oneRewriteSL : StmtList → StmtList → Bool
  | .cons s ss, .cons t ts => (oneRewriteS s t && beqSL ss ts) || (beqS s t && oneRewriteSL ss ts)
  | _, _ => false

end

/-- `m'` is `m` with exactly one catalog rewrite applied at exactly one node. -/
def oneRewriteMod (m m' : PyModule) : Bool :=
  oneRewriteSL m.body m'.body

/-- Every expression subtree contains at least its own node. -/
theorem sizeE_pos (e : Expr) : 0 < sizeE e := by
  cases e <;> simp [sizeE]

/-- Every statement subtree contains at least its own node. -/
theorem sizeS_pos (s : Stmt) : 0 < sizeS s := by
  match s with
  | .assign ln t v => simp [sizeS]
  | .ret ln none => simp [sizeS]
  | .ret ln (some v) => simp [sizeS]
  | .ifS ln t b o => simp [sizeS]
  | .funcDef ln n b => simp [sizeS]
  | .exprS ln v => simp [sizeS]

mutual

theorem collectE_ctr : ∀ (elig : Nat → Bool) (e : Expr) (c : Nat),
    (collectE elig e c).2 = c + sizeE e
  | elig, .name ln i, c => by simp [collectE, sizeE]
  | elig, .const ln v, c => by simp [collectE, sizeE]
  | elig, .constNone ln, c => by simp [collectE, sizeE]
  | elig, .binOp ln l op r, c => by
      have h1 := collectE_ctr elig l (c + 1)
      have h2 := collectE_ctr elig r ((collectE elig l (c + 1)).2)
      simp only [collectE, sizeE]
      rw [h2, h1]
      omega
  | elig, .boolOp ln op vs, c => by
      have h := collectEL_ctr elig vs (c + 1)
      simp only [collectE, sizeE]
      rw [h]
      omega
  | elig, .compare ln l ops cs, c => by
      have h1 := collectE_ctr elig l (c + 1)
      have h2 := collectEL_ctr elig cs ((collectE elig l (c + 1)).2)
      simp only [collectE, sizeE]
      rw [h2, h1]
      omega
  | elig, .unaryOp ln op od, c => by
      have h := collectE_ctr elig od (c + 1)
      simp only [collectE, sizeE]
      rw [h]
      omega

theorem collectEL_ctr : ∀ (elig : Nat → Bool) (es : ExprList) (c : Nat),
    (collectEL elig es c).2 = c + sizeEL es
  | elig, .nil, c => by simp [collectEL, sizeEL]
  | elig, .cons e es, c => by
      have h1 := collectE_ctr elig e c
      have h2 := collectEL_ctr elig es ((collectE elig e c).2)
      simp only [collectEL, sizeEL]
      rw [h2, h1]
      omega

theorem collectS_ctr : ∀ (elig : Nat → Bool) (s : Stmt) (c : Nat),
    (collectS elig s c).2 = c + sizeS s
  | elig, .assign ln t v, c => by
      have h := collectE_ctr elig v (c + 1)
      simp only [collectS, sizeS]
      rw [h]
      omega
  | elig, .ret ln none, c => by simp [collectS, sizeS]
  | elig, .ret ln (some v), c => by
      have h := collectE_ctr elig v (c + 1)
      simp only [collectS, sizeS]
      rw [h]
      omega
  | elig, .ifS ln t b o, c => by
      have h1 := collectE_ctr elig t (c + 1)
      have h2 := collectSL_ctr elig b ((collectE elig t (c + 1)).2)
      have h3 := collectSL_ctr elig o ((collectSL elig b ((collectE elig t (c + 1)).2)).2)
      simp only [collectS, sizeS]
      rw [h3, h2, h1]
      omega
  | elig, .funcDef ln n b, c => by
      have h := collectSL_ctr elig b (c + 1)
      simp only [collectS, sizeS]
      rw [h]
      omega
  | elig, .exprS ln v, c => by
      have h := collectE_ctr elig v (c + 1)
      simp only [collectS, sizeS]
      rw [h]
      omega

theorem collectSL_ctr : ∀ (elig : Nat → Bool) (ss : StmtList) (c : Nat),
    (collectSL elig ss c).2 = c + sizeSL ss
  | elig, .nil, c => by simp [collectSL, sizeSL]
  | elig, .cons s ss, c => by
      have h1 := collectS_ctr elig s c
      have h2 := collectSL_ctr elig ss ((collectS elig s c).2)
      simp only [collectSL, sizeSL]
      rw [h2, h1]
      omega

end

mutual

theorem applyE_ctr : ∀ (e : Expr) (c mid : Nat) (mu : Mutation),
    (applyE e c mid mu).2 = c + sizeE e
  | .name ln i, c, mid, mu => by
      rw [applyE]; split
      · rfl
      · simp [sizeE]
  | .const ln v, c, mid, mu => by
      rw [applyE]; split
      · rfl
      · simp [sizeE]
  | .constNone ln, c, mid, mu => by
      rw [applyE]; split
      · rfl
      · simp [sizeE]
  | .binOp ln l op r, c, mid, mu => by
      have h1 := applyE_ctr l (c + 1) mid mu
      have h2 := applyE_ctr r ((applyE l (c + 1) mid mu).2) mid mu
      rw [applyE]; split
      · rfl
      · simp only [sizeE]
        rw [h2, h1]
        omega
  | .boolOp ln op vs, c, mid, mu => by
      have h := applyEL_ctr vs (c + 1) mid mu
      rw [applyE]; split
      · rfl
      · simp only [sizeE]
        rw [h]
        omega
  | .compare ln l ops cs, c, mid, mu => by
      have h1 := applyE_ctr l (c + 1) mid mu
      have h2 := applyEL_ctr cs ((applyE l (c + 1) mid mu).2) mid mu
      rw [applyE]; split
      · rfl
      · simp only [sizeE]
        rw [h2, h1]
        omega
  | .unaryOp ln op od, c, mid, mu => by
      have h := applyE_ctr od (c + 1) mid mu
      rw [applyE]; split
      · rfl
      · simp only [sizeE]
        rw [h]
        omega

theorem applyEL_ctr : ∀ (es : ExprList) (c mid : Nat) (mu : Mutation),
    (applyEL es c mid mu).2 = c + sizeEL es
  | .nil, c, mid, mu => by simp [applyEL, sizeEL]
  | .cons e es, c, mid, mu => by
      have h1 := applyE_ctr e c mid mu
      have h2 := applyEL_ctr es ((applyE e c mid mu).2) mid mu
      simp only [applyEL, sizeEL]
      rw [h2, h1]
      omega

theorem applyS_ctr : ∀ (s : Stmt) (c mid : Nat) (mu : Mutation),
    (applyS s c mid mu).2 = c + sizeS s
  | .assign ln t v, c, mid, mu => by
      have h := applyE_ctr v (c + 1) mid mu
      rw [applyS]; split
      · rfl
      · simp only [sizeS]
        rw [h]
        omega
  | .ret ln none, c, mid, mu => by
      rw [applyS]; split
      · rfl
      · simp [sizeS]
  | .ret ln (some v), c, mid, mu => by
      have h := applyE_ctr v (c + 1) mid mu
      rw [applyS]; split
      · rfl
      · simp only [sizeS]
        rw [h]
        omega
  | .ifS ln t b o, c, mid, mu => by
      have h1 := applyE_ctr t (c + 1) mid mu
      have h2 := applySL_ctr b ((applyE t (c + 1) mid mu).2) mid mu
      have h3 := applySL_ctr o ((applySL b ((applyE t (c + 1) mid mu).2) mid mu).2) mid mu
      rw [applyS]; split
      · rfl
      · simp only [sizeS]
        rw [h3, h2, h1]
        omega
  | .funcDef ln n b, c, mid, mu => by
      have h := applySL_ctr b (c + 1) mid mu
      rw [applyS]; split
      · rfl
      · simp only [sizeS]
        rw [h]
        omega
  | .exprS ln v, c, mid, mu => by
      have h := applyE_ctr v (c + 1) mid mu
      rw [applyS]; split
      · rfl
      · simp only [sizeS]
        rw [h]
        omega

theorem applySL_ctr : ∀ (ss : StmtList) (c mid : Nat) (mu : Mutation),
    (applySL ss c mid mu).2 = c + sizeSL ss
  | .nil, c, mid, mu => by simp [applySL, sizeSL]
  | .cons s ss, c, mid, mu => by
      have h1 := applyS_ctr s c mid mu
      have h2 := applySL_ctr ss ((applyS s c mid mu).2) mid mu
      simp only [applySL, sizeSL]
      rw [h2, h1]
      omega

end

mutual

theorem applyE_out : ∀ (e : Expr) (c mid : Nat) (mu : Mutation),
    (mid < c ∨ c + sizeE e ≤ mid) → (applyE e c mid mu).1 = e
  | .name ln i, c, mid, mu, h => by
      rw [applyE]; split
      · next hEq => exfalso; simp only [sizeE] at h; omega
      · rfl
  | .const ln v, c, mid, mu, h => by
      rw [applyE]; split
      · next hEq => exfalso; simp only [sizeE] at h; omega
      · rfl
  | .constNone ln, c, mid, mu, h => by
      rw [applyE]; split
      · next hEq => exfalso; simp only [sizeE] at h; omega
      · rfl
  | .binOp ln l op r, c, mid, mu, h => by
      simp only [sizeE] at h
      have hc := applyE_ctr l (c + 1) mid mu
      have h1 := applyE_out l (c + 1) mid mu (by omega)
      have h2 := applyE_out r ((applyE l (c + 1) mid mu).2) mid mu (by rw [hc]; omega)
      rw [applyE]; split
      · next hEq => exfalso; omega
      · simp only [h1, h2]
  | .boolOp ln op vs, c, mid, mu, h => by
      simp only [sizeE] at h
      have h1 := applyEL_out vs (c + 1) mid mu (by omega)
      rw [applyE]; split
      · next hEq => exfalso; omega
      · simp only [h1]
  | .compare ln l ops cs, c, mid, mu, h => by
      simp only [sizeE] at h
      have hc := applyE_ctr l (c + 1) mid mu
      have h1 := applyE_out l (c + 1) mid mu (by omega)
      have h2 := applyEL_out cs ((applyE l (c + 1) mid mu).2) mid mu (by rw [hc]; omega)
      rw [applyE]; split
      · next hEq => exfalso; omega
      · simp only [h1, h2]
  | .unaryOp ln op od, c, mid, mu, h => by
      simp only [sizeE] at h
      have h1 := applyE_out od (c + 1) mid mu (by omega)
      rw [applyE]; split
      · next hEq => exfalso; omega
      · simp only [h1]

theorem applyEL_out : ∀ (es : ExprList) (c mid : Nat) (mu : Mutation),
    (mid < c ∨ c + sizeEL es ≤ mid) → (applyEL es c mid mu).1 = es
  | .nil, c, mid, mu, h => by simp [applyEL]
  | .cons e es, c, mid, mu, h => by
      simp only [sizeEL] at h
      have hc := applyE_ctr e c mid mu
      have h1 := applyE_out e c mid mu (by omega)
      have h2 := applyEL_out es ((applyE e c mid mu).2) mid mu (by rw [hc]; omega)
      simp only [applyEL, h1, h2]

theorem applyS_out : ∀ (s : Stmt) (c mid : Nat) (mu : Mutation),
    (mid < c ∨ c + sizeS s ≤ mid) → (applyS s c mid mu).1 = s
  | .assign ln t v, c, mid, mu, h => by
      simp only [sizeS] at h
      have h1 := applyE_out v (c + 1) mid mu (by omega)
      rw [applyS]; split
      · next hEq => exfalso; omega
      · simp only [h1]
  | .ret ln none, c, mid, mu, h => by
      simp only [sizeS] at h
      rw [applyS]; split
      · next hEq => exfalso; omega
      · rfl
  | .ret ln (some v), c, mid, mu, h => by
      simp only [sizeS] at h
      have h1 := applyE_out v (c + 1) mid mu (by omega)
      rw [applyS]; split
      · next hEq => exfalso; omega
      · simp only [h1]
  | .ifS ln t b o, c, mid, mu, h => by
      simp only [sizeS] at h
      have hc1 := applyE_ctr t (c + 1) mid mu
      have hc2 := applySL_ctr b ((applyE t (c + 1) mid mu).2) mid mu
      have h1 := applyE_out t (c + 1) mid mu (by omega)
      have h2 := applySL_out b ((applyE t (c + 1) mid mu).2) mid mu (by rw [hc1]; omega)
      have h3 := applySL_out o ((applySL b ((applyE t (c + 1) mid mu).2) mid mu).2) mid mu
        (by rw [hc2, hc1]; omega)
      rw [applyS]; split
      · next hEq => exfalso; omega
      · simp only [h1, h2, h3]
  | .funcDef ln n b, c, mid, mu, h => by
      simp only [sizeS] at h
      have h1 := applySL_out b (c + 1) mid mu (by omega)
      rw [applyS]; split
      · next hEq => exfalso; omega
      · simp only [h1]
  | .exprS ln v, c, mid, mu, h => by
      simp only [sizeS] at h
      have h1 := applyE_out v (c + 1) mid mu (by omega)
      rw [applyS]; split
      · next hEq => exfalso; omega
      · simp only [h1]

theorem applySL_out : ∀ (ss : StmtList) (c mid : Nat) (mu : Mutation),
    (mid < c ∨ c + sizeSL ss ≤ mid) → (applySL ss c mid mu).1 = ss
  | .nil, c, mid, mu, h => by simp [applySL]
  | .cons s ss, c, mid, mu, h => by
      simp only [sizeSL] at h
      have hc := applyS_ctr s c mid mu
      have h1 := applyS_out s c mid mu (by omega)
      have h2 := applySL_out ss ((applyS s c mid mu).2) mid mu (by rw [hc]; omega)
      simp only [applySL, h1, h2]

end

theorem cmpSites_mem : ∀ (c ln : Nat) (ops : List Cop) (i : Nat) (s : Site),
    s ∈ cmpSites c ln ops i →
    s.mid = c ∧ s.line = ln ∧ ∃ j op0 newT, ops.get? j = some op0 ∧ CMP op0 = some newT ∧
      s.mutation = .cmp (i + j) newT
  | c, ln, [], i, s, h => by simp [cmpSites] at h
  | c, ln, op :: rest, i, s, h => by
      simp only [cmpSites, List.mem_append] at h
      rcases h with h | h
      · cases hA : CMP op with
        | none => rw [hA] at h; simp at h
        | some newT =>
            rw [hA] at h
            simp only [List.mem_singleton] at h
            subst h
            refine ⟨rfl, rfl, 0, op, newT, by simp, hA, by simp⟩
      · obtain ⟨hmid, hline, j, op0, newT, hget, hcmp, hmut⟩ := cmpSites_mem c ln rest (i + 1) s h
        exact ⟨hmid, hline, j + 1, op0, newT, by simpa using hget, hcmp,
          by rw [hmut]; congr 1; omega⟩

theorem cmpListOneSwap_set : ∀ (ops : List Cop) (j : Nat) (op0 newT : Cop),
    ops.get? j = some op0 → CMP op0 = some newT →
    cmpListOneSwap ops (ops.set j newT) = true
  | [], j, op0, newT, h, _ => by simp at h
  | a :: as, 0, op0, newT, h, hc => by
      simp only [List.get?_cons_zero, Option.some.injEq] at h
      subst h
      simp [cmpListOneSwap, hc]
  | a :: as, j + 1, op0, newT, h, hc => by
      simp only [List.get?_cons_succ] at h
      have ih := cmpListOneSwap_set as j op0 newT h hc
      simp [cmpListOneSwap, ih]

mutual

theorem collectE_sound : ∀ (elig : Nat → Bool) (e : Expr) (c : Nat) (s : Site),
    s ∈ (collectE elig e c).1 →
    (c ≤ s.mid ∧ s.mid < c + sizeE e) ∧
    oneRewriteE e (applyE e c s.mid s.mutation).1 = true
  | elig, .name ln i, c, s, h => by simp [collectE] at h
  | elig, .const ln v, c, s, h => by simp [collectE] at h
  | elig, .constNone ln, c, s, h => by simp [collectE] at h
  | elig, .binOp ln l op r, c, s, h => by
      simp only [collectE, List.mem_append] at h
      rcases h with (h | h) | h
      · simp only [exprSites] at h
        cases hel : elig ln <;> rw [hel] at h
        · simp at h
        · cases hA : ARITH op with
          | none => rw [hA] at h; simp at h
          | some newT =>
              rw [hA] at h
              simp only [if_true, List.mem_singleton] at h
              subst h
              constructor
              · constructor
                · simp
                · simp only [sizeE]; omega
              · rw [applyE]
                simp only [if_pos rfl]
                simp [rewriteE, oneRewriteE, hA, beqE_refl l, beqE_refl r]
      · have ih := collectE_sound elig l (c + 1) s h
        obtain ⟨⟨hlo, hhi⟩, hrw⟩ := ih
        constructor
        · simp only [sizeE]; omega
        · rw [applyE]; split
          · next hEq => exfalso; omega
          · have hctr := applyE_ctr l (c + 1) s.mid s.mutation
            have hr := applyE_out r ((applyE l (c + 1) s.mid s.mutation).2) s.mid s.mutation
              (by rw [hctr]; omega)
            simp only [hr]
            simp [oneRewriteE, hrw, beqE_refl r]
      · have hcc := collectE_ctr elig l (c + 1)
        rw [hcc] at h
        have ih := collectE_sound elig r (c + 1 + sizeE l) s h
        obtain ⟨⟨hlo, hhi⟩, hrw⟩ := ih
        constructor
        · simp only [sizeE]; omega
        · rw [applyE]; split
          · next hEq => exfalso; omega
          · have hl := applyE_out l (c + 1) s.mid s.mutation (by omega)
            have hctr := applyE_ctr l (c + 1) s.mid s.mutation
            simp only [hl, hctr]
            simp [oneRewriteE, hrw, beqE_refl l]
  | elig, .boolOp ln op vs, c, s, h => by
      simp only [collectE, List.mem_append] at h
      rcases h with h | h
      · simp only [exprSites] at h
        cases hel : elig ln <;> rw [hel] at h
        · simp at h
        · cases hB : BOOL op with
          | none => rw [hB] at h; simp at h
          | some newT =>
              rw [hB] at h
              simp only [if_true, List.mem_singleton] at h
              subst h
              constructor
              · constructor
                · simp
                · simp only [sizeE]; omega
              · rw [applyE]
                simp only [if_pos rfl]
                simp [rewriteE, oneRewriteE, hB, beqEL_refl vs]
      · have ih := collectEL_sound elig vs (c + 1) s h
        obtain ⟨⟨hlo, hhi⟩, hrw⟩ := ih
        constructor
        · simp only [sizeE]; omega
        · rw [applyE]; split
          · next hEq => exfalso; omega
          · simp [oneRewriteE, hrw]
  | elig, .compare ln l ops cs, c, s, h => by
      simp only [collectE, List.mem_append] at h
      rcases h with (h | h) | h
      · simp only [exprSites] at h
        cases hel : elig ln <;> rw [hel] at h
        · simp at h
        · simp only [if_true] at h
          obtain ⟨hmid, hline, j, op0, newT, hget, hcmp, hmut⟩ := cmpSites_mem c ln ops 0 s h
          constructor
          · constructor
            · omega
            · have := sizeE_pos (Expr.compare ln l ops cs); omega
          · rw [applyE]
            rw [if_pos hmid.symm]
            rw [hmut]
            simp only [Nat.zero_add]
            have hswap := cmpListOneSwap_set ops j op0 newT hget hcmp
            simp [rewriteE, oneRewriteE, hswap, beqE_refl l, beqEL_refl cs]
      · have ih := collectE_sound elig l (c + 1) s h
        obtain ⟨⟨hlo, hhi⟩, hrw⟩ := ih
        constructor
        · simp only [sizeE]; omega
        · rw [applyE]; split
          · next hEq => exfalso; omega
          · have hctr := applyE_ctr l (c + 1) s.mid s.mutation
            have hr := applyEL_out cs ((applyE l (c + 1) s.mid s.mutation).2) s.mid s.mutation
              (by rw [hctr]; omega)
            simp only [hr]
            simp [oneRewriteE, hrw, beqEL_refl cs]
      · have hcc := collectE_ctr elig l (c + 1)
        rw [hcc] at h
        have ih := collectEL_sound elig cs (c + 1 + sizeE l) s h
        obtain ⟨⟨hlo, hhi⟩, hrw⟩ := ih
        constructor
        · simp only [sizeE]; omega
        · rw [applyE]; split
          · next hEq => exfalso; omega
          · have hl := applyE_out l (c + 1) s.mid s.mutation (by omega)
            have hctr := applyE_ctr l (c + 1) s.mid s.mutation
            simp only [hl, hctr]
            simp [oneRewriteE, hrw, beqE_refl l]
  | elig, .unaryOp ln op od, c, s, h => by
      simp only [collectE] at h
      have ih := collectE_sound elig od (c + 1) s h
      obtain ⟨⟨hlo, hhi⟩, hrw⟩ := ih
      constructor
      · simp only [sizeE]; omega
      · rw [applyE]; split
        · next hEq => exfalso; omega
        · simp [oneRewriteE, hrw]

theorem collectEL_sound : ∀ (elig : Nat → Bool) (es : ExprList) (c : Nat) (s : Site),
    s ∈ (collectEL elig es c).1 →
    (c ≤ s.mid ∧ s.mid < c + sizeEL es) ∧
    oneRewriteEL es (applyEL es c s.mid s.mutation).1 = true
  | elig, .nil, c, s, h => by simp [collectEL] at h
  | elig, .cons e es, c, s, h => by
      simp only [collectEL, List.mem_append] at h
      rcases h with h | h
      · have ih := collectE_sound elig e c s h
        obtain ⟨⟨hlo, hhi⟩, hrw⟩ := ih
        constructor
        · simp only [sizeEL]; omega
        · have hctr := applyE_ctr e c s.mid s.mutation
          have hr := applyEL_out es ((applyE e c s.mid s.mutation).2) s.mid s.mutation
            (by rw [hctr]; omega)
          simp only [applyEL, hr]
          simp [oneRewriteEL, hrw, beqEL_refl es]
      · have hcc := collectE_ctr elig e c
        rw [hcc] at h
        have ih := collectEL_sound elig es (c + sizeE e) s h
        obtain ⟨⟨hlo, hhi⟩, hrw⟩ := ih
        have := sizeE_pos e
        constructor
        · simp only [sizeEL]; omega
        · have he := applyE_out e c s.mid s.mutation (by omega)
          have hctr := applyE_ctr e c s.mid s.mutation
          simp only [applyEL, he, hctr]
          simp [oneRewriteEL, hrw, beqE_refl e]

theorem collectS_sound : ∀ (elig : Nat → Bool) (st : Stmt) (c : Nat) (s : Site),
    s ∈ (collectS elig st c).1 →
    (c ≤ s.mid ∧ s.mid < c + sizeS st) ∧
    oneRewriteS st (applyS st c s.mid s.mutation).1 = true
  | elig, .assign ln t v, c, s, h => by
      simp only [collectS] at h
      have ih := collectE_sound elig v (c + 1) s h
      obtain ⟨⟨hlo, hhi⟩, hrw⟩ := ih
      constructor
      · simp only [sizeS]; omega
      · rw [applyS]; split
        · next hEq => exfalso; omega
        · simp [oneRewriteS, hrw]
  | elig, .ret ln none, c, s, h => by simp [collectS] at h
  | elig, .ret ln (some v), c, s, h => by
      simp only [collectS, List.mem_append] at h
      rcases h with h | h
      · simp only [stmtSites] at h
        cases hel : elig ln <;> rw [hel] at h
        · simp at h
        · simp only [if_true, List.mem_singleton] at h
          subst h
          constructor
          · constructor
            · simp
            · simp only [sizeS]; omega
          · rw [applyS]
            simp only [if_pos rfl]
            simp [rewriteS, oneRewriteS, beqE]
      · have ih := collectE_sound elig v (c + 1) s h
        obtain ⟨⟨hlo, hhi⟩, hrw⟩ := ih
        constructor
        · simp only [sizeS]; omega
        · rw [applyS]; split
          · next hEq => exfalso; omega
          · simp [oneRewriteS, hrw]
  | elig, .ifS ln t b o, c, s, h => by
      simp only [collectS, List.mem_append] at h
      rcases h with ((h | h) | h) | h
      · simp only [stmtSites] at h
        cases hel : elig ln <;> rw [hel] at h
        · simp at h
        · simp only [if_true, List.mem_singleton] at h
          subst h
          constructor
          · constructor
            · simp
            · simp only [sizeS]; omega
          · rw [applyS]
            simp only [if_pos rfl]
            simp [rewriteS, oneRewriteS, beqE_refl (Expr.unaryOp ln Uop.notOp t),
              beqSL_refl b, beqSL_refl o]
      · have ih := collectE_sound elig t (c + 1) s h
        obtain ⟨⟨hlo, hhi⟩, hrw⟩ := ih
        constructor
        · simp only [sizeS]; omega
        · rw [applyS]; split
          · next hEq => exfalso; omega
          · have hctr1 := applyE_ctr t (c + 1) s.mid s.mutation
            have hb := applySL_out b ((applyE t (c + 1) s.mid s.mutation).2) s.mid s.mutation
              (by rw [hctr1]; omega)
            have hctr2 := applySL_ctr b ((applyE t (c + 1) s.mid s.mutation).2) s.mid s.mutation
            have ho := applySL_out o
              ((applySL b ((applyE t (c + 1) s.mid s.mutation).2) s.mid s.mutation).2)
              s.mid s.mutation (by rw [hctr2, hctr1]; omega)
            simp only [hb, ho]
            simp [oneRewriteS, hrw, beqSL_refl b, beqSL_refl o]
      · have hcc1 := collectE_ctr elig t (c + 1)
        rw [hcc1] at h
        have ih := collectSL_sound elig b (c + 1 + sizeE t) s h
        obtain ⟨⟨hlo, hhi⟩, hrw⟩ := ih
        constructor
        · simp only [sizeS]; omega
        · rw [applyS]; split
          · next hEq => exfalso; omega
          · have ht := applyE_out t (c + 1) s.mid s.mutation (by omega)
            have hctr1 := applyE_ctr t (c + 1) s.mid s.mutation
            have hctr2 := applySL_ctr b (c + 1 + sizeE t) s.mid s.mutation
            have ho := applySL_out o (c + 1 + sizeE t + sizeSL b) s.mid s.mutation (by omega)
            simp only [ht, hctr1, hctr2, ho]
            simp [oneRewriteS, hrw, beqE_refl t, beqSL_refl o]
      · have hcc1 := collectE_ctr elig t (c + 1)
        rw [hcc1] at h
        have hcc2 := collectSL_ctr elig b (c + 1 + sizeE t)
        rw [hcc2] at h
        have ih := collectSL_sound elig o (c + 1 + sizeE t + sizeSL b) s h
        obtain ⟨⟨hlo, hhi⟩, hrw⟩ := ih
        constructor
        · simp only [sizeS]; omega
        · rw [applyS]; split
          · next hEq => exfalso; omega
          · have ht := applyE_out t (c + 1) s.mid s.mutation (by omega)
            have hctr1 := applyE_ctr t (c + 1) s.mid s.mutation
            have hb := applySL_out b (c + 1 + sizeE t) s.mid s.mutation (by omega)
            have hctr2 := applySL_ctr b (c + 1 + sizeE t) s.mid s.mutation
            simp only [ht, hctr1, hb, hctr2]
            simp [oneRewriteS, hrw, beqE_refl t, beqSL_refl b]
  | elig, .funcDef ln n b, c, s, h => by
      simp only [collectS] at h
      have ih := collectSL_sound elig b (c + 1) s h
      obtain ⟨⟨hlo, hhi⟩, hrw⟩ := ih
      constructor
      · simp only [sizeS]; omega
      · rw [applyS]; split
        · next hEq => exfalso; omega
        · simp [oneRewriteS, hrw]
  | elig, .exprS ln v, c, s, h => by
      simp only [collectS] at h
      have ih := collectE_sound elig v (c + 1) s h
      obtain ⟨⟨hlo, hhi⟩, hrw⟩ := ih
      constructor
      · simp only [sizeS]; omega
      · rw [applyS]; split
        · next hEq => exfalso; omega
        · simp [oneRewriteS, hrw]

theorem collectSL_sound : ∀ (elig : Nat → Bool) (ss : StmtList) (c : Nat) (s : Site),
    s ∈ (collectSL elig ss c).1 →
    (c ≤ s.mid ∧ s.mid < c + sizeSL ss) ∧
    oneRewriteSL ss (applySL ss c s.mid s.mutation).1 = true
  | elig, .nil, c, s, h => by simp [collectSL] at h
  | elig, .cons st ss, c, s, h => by
      simp only [collectSL, List.mem_append] at h
      rcases h with h | h
      · have ih := collectS_sound elig st c s h
        obtain ⟨⟨hlo, hhi⟩, hrw⟩ := ih
        constructor
        · simp only [sizeSL]; omega
        · have hctr := applyS_ctr st c s.mid s.mutation
          have hr := applySL_out ss ((applyS st c s.mid s.mutation).2) s.mid s.mutation
            (by rw [hctr]; omega)
          simp only [applySL, hr]
          simp [oneRewriteSL, hrw, beqSL_refl ss]
      · have hcc := collectS_ctr elig st c
        rw [hcc] at h
        have ih := collectSL_sound elig ss (c + sizeS st) s h
        obtain ⟨⟨hlo, hhi⟩, hrw⟩ := ih
        have := sizeS_pos st
        constructor
        · simp only [sizeSL]; omega
        · have hs := applyS_out st c s.mid s.mutation (by omega)
          have hctr := applyS_ctr st c s.mid s.mutation
          simp only [applySL, hs, hctr]
          simp [oneRewriteSL, hrw, beqS_refl st]

end

mutual

theorem collectE_line : ∀ (elig : Nat → Bool) (e : Expr) (c : Nat) (s : Site),
    s ∈ (collectE elig e c).1 → elig s.line = true
  | elig, .name ln i, c, s, h => by simp [collectE] at h
  | elig, .const ln v, c, s, h => by simp [collectE] at h
  | elig, .constNone ln, c, s, h => by simp [collectE] at h
  | elig, .binOp ln l op r, c, s, h => by
      simp only [collectE, List.mem_append] at h
      rcases h with (h | h) | h
      · simp only [exprSites] at h
        cases hel : elig ln <;> rw [hel] at h
        · simp at h
        · cases hA : ARITH op with
          | none => rw [hA] at h; simp at h
          | some newT =>
              rw [hA] at h
              simp only [if_true, List.mem_singleton] at h
              subst h
              exact hel
      · exact collectE_line elig l (c + 1) s h
      · exact collectE_line elig r ((collectE elig l (c + 1)).2) s h
  | elig, .boolOp ln op vs, c, s, h => by
      simp only [collectE, List.mem_append] at h
      rcases h with h | h
      · simp only [exprSites] at h
        cases hel : elig ln <;> rw [hel] at h
        · simp at h
        · cases hB : BOOL op with
          | none => rw [hB] at h; simp at h
          | some newT =>
              rw [hB] at h
              simp only [if_true, List.mem_singleton] at h
              subst h
              exact hel
      · exact collectEL_line elig vs (c + 1) s h
  | elig, .compare ln l ops cs, c, s, h => by
      simp only [collectE, List.mem_append] at h
      rcases h with (h | h) | h
      · simp only [exprSites] at h
        cases hel : elig ln <;> rw [hel] at h
        · simp at h
        · simp only [if_true] at h
          obtain ⟨hmid, hline, _⟩ := cmpSites_mem c ln ops 0 s h
          rw [hline]
          exact hel
      · exact collectE_line elig l (c + 1) s h
      · exact collectEL_line elig cs ((collectE elig l (c + 1)).2) s h
  | elig, .unaryOp ln op od, c, s, h => by
      simp only [collectE] at h
      exact collectE_line elig od (c + 1) s h

theorem collectEL_line : ∀ (elig : Nat → Bool) (es : ExprList) (c : Nat) (s : Site),
    s ∈ (collectEL elig es c).1 → elig s.line = true
  | elig, .nil, c, s, h => by simp [collectEL] at h
  | elig, .cons e es, c, s, h => by
      simp only [collectEL, List.mem_append] at h
      rcases h with h | h
      · exact collectE_line elig e c s h
      · exact collectEL_line elig es ((collectE elig e c).2) s h

theorem collectS_line : ∀ (elig : Nat → Bool) (st : Stmt) (c : Nat) (s : Site),
    s ∈ (collectS elig st c).1 → elig s.line = true
  | elig, .assign ln t v, c, s, h => by
      simp only [collectS] at h
      exact collectE_line elig v (c + 1) s h
  | elig, .ret ln none, c, s, h => by simp [collectS] at h
  | elig, .ret ln (some v), c, s, h => by
      simp only [collectS, List.mem_append] at h
      rcases h with h | h
      · simp only [stmtSites] at h
        cases hel : elig ln <;> rw [hel] at h
        · simp at h
        · simp only [if_true, List.mem_singleton] at h
          subst h
          exact hel
      · exact collectE_line elig v (c + 1) s h
  | elig, .ifS ln t b o, c, s, h => by
      simp only [collectS, List.mem_append] at h
      rcases h with ((h | h) | h) | h
      · simp only [stmtSites] at h
        cases hel : elig ln <;> rw [hel] at h
        · simp at h
        · simp only [if_true, List.mem_singleton] at h
          subst h
          exact hel
      · exact collectE_line elig t (c + 1) s h
      · exact collectSL_line elig b ((collectE elig t (c + 1)).2) s h
      · exact collectSL_line elig o ((collectSL elig b ((collectE elig t (c + 1)).2)).2) s h
  | elig, .funcDef ln n b, c, s, h => by
      simp only [collectS] at h
      exact collectSL_line elig b (c + 1) s h
  | elig, .exprS ln v, c, s, h => by
      simp only [collectS] at h
      exact collectE_line elig v (c + 1) s h

theorem collectSL_line : ∀ (elig : Nat → Bool) (ss : StmtList) (c : Nat) (s : Site),
    s ∈ (collectSL elig ss c).1 → elig s.line = true
  | elig, .nil, c, s, h => by simp [collectSL] at h
  | elig, .cons st ss, c, s, h => by
      simp only [collectSL, List.mem_append] at h
      rcases h with h | h
      · exact collectS_line elig st c s h
      · exact collectSL_line elig ss ((collectS elig st c).2) s h

end

/-- Module-level consequence of the soundness lemmas: every collected site,
applied through `_apply_site` to a fresh copy of the tree, yields a tree in
single-rewrite relation with the original. -/
theorem collect_sites_oneRewrite (tree : PyModule) (L : Option (List Nat)) (s : Site)
    (h : s ∈ collect_sites tree L) :
    oneRewriteMod tree (apply_site tree s.mid s.mutation) = true :=
  (collectSL_sound (eligible L) tree.body 1 s h).2

/-- Module-level consequence of the line lemmas: every collected site lies on
an eligible line. -/
theorem collect_sites_line (tree : PyModule) (L : Option (List Nat)) (s : Site)
    (h : s ∈ collect_sites tree L) : eligible L s.line = true :=
  collectSL_line (eligible L) tree.body 1 s h

/-- A parser stub instantiating the external `ast.parse` collaborator on the
single concrete source `"x = 1 + 2\n"` (the tree it returns is exactly what
CPython's parser produces for that text, restricted to the modelled fields). -/
def parseX1 : String → Option PyModule :=
  fun s => if s = "x = 1 + 2\n" then some xAssignTree else none

/-- C2 counterexample: with the supplied eligible-line set `∅`, the generator
still produces a mutant (the `Add -> Sub` rewrite on line 1 of
`"x = 1 + 2\n"`), and that mutant's line is not a member of `∅`.  This is the
guard `target_lines and ln not in target_lines` of `_collect_sites`: an empty
set is falsy, so it does not restrict at all, contradicting the claim. -/
theorem line_scoping_empty_set_counterexample :
    (apply_mutations parseX1 unparse0 "x = 1 + 2\n" (some [])).map Mutant.line = [1] ∧
    (1 : Nat) ∉ ([] : List Nat) := by
  constructor
  · decide
  · simp

/-- C2 (amended): for every supplied nonempty eligible-line set `L`, every
mutant the generator returns has a line number that is a member of `L`; a
supplied empty set behaves like no restriction at all (see the
counterexample), exactly as an absent set does. -/
theorem line_scoping_nonempty_set (parse : String → Option PyModule)
    (unparse : PyModule → Option String) (source : String) (L : List Nat)
    (hL : L ≠ []) (m : Mutant)
    (hm : m ∈ apply_mutations parse unparse source (some L)) : m.line ∈ L := by
  unfold apply_mutations at hm
  cases hp : parse source with
  | none => rw [hp] at hm; simp at hm
  | some tree =>
      rw [hp] at hm
      unfold mutateTree at hm
      rw [List.mem_filterMap] at hm
      obtain ⟨s, hs, hmap⟩ := hm
      have hline := collect_sites_line tree (some L) s hs
      simp only [eligible] at hline
      have hcont : L.contains s.line = true := by
        cases hE : L.isEmpty
        · simpa [hE] using hline
        · exact absurd (List.isEmpty_iff.mp hE) hL
      have hmem := List.mem_of_elem_eq_true hcont
      cases hu : unparse (apply_site tree s.mid s.mutation) with
      | none => rw [hu] at hmap; simp at hmap
      | some code =>
          rw [hu] at hmap
          simp only [Option.map_some', Option.some.injEq] at hmap
          subst hmap
          exact hmem

/-- C2 witness: the amended claim applied to `"x = 1 + 2\n"` with the
nonempty set `{1}`. -/
theorem line_scoping_nonempty_set_witness :
    ({ code := "", line := 1, operator := "arithmetic", description := "Add -> Sub",
       suggestion := "Add assertion checking the computed result value" } : Mutant).line
      ∈ [1] :=
  line_scoping_nonempty_set parseX1 unparse0 "x = 1 + 2\n" [1] (by decide) _ (by decide)

/-- C9: calling the generator with an empty eligible-line set produces the
same mutant sequence as calling it with no restriction at all: the guard
`target_lines and ln not in target_lines` treats a falsy empty set exactly
like `None`. -/
theorem empty_set_eq_no_restriction (parse : String → Option PyModule)
    (unparse : PyModule → Option String) (source : String) :
    apply_mutations parse unparse source (some []) =
    apply_mutations parse unparse source none := by
  unfold apply_mutations
  cases parse source with
  | none => rfl
  | some tree =>
      unfold mutateTree collect_sites
      have he : eligible (some []) = eligible none := funext fun _ => rfl
      rw [he]

/-- C8: for every source text the parser rejects, `apply_mutations` returns
the empty sequence; the `except SyntaxError` branch is total (the embedding
is a total function) and recovered locally. -/
theorem parse_failure_yields_empty (parse : String → Option PyModule)
    (unparse : PyModule → Option String) (source : String)
    (L : Option (List Nat)) (h : parse source = none) :
    apply_mutations parse unparse source L = [] := by
  unfold apply_mutations
  rw [h]

/-- C8 witness: the syntactically invalid source of the repository's own test
(`"def broken(:"`), under a parser that rejects it. -/
theorem parse_failure_yields_empty_witness :
    parseFail "def broken(:" = none ∧
    apply_mutations parseFail unparse0 "def broken(:" (some [1]) = [] :=
  ⟨rfl, parse_failure_yields_empty parseFail unparse0 "def broken(:" (some [1]) rfl⟩

/-- C6: every mutant the generator returns comes from one collected site,
whose single rewrite is applied to a fresh copy of the unmutated tree
(`apply_site tree` starts from the original `tree` for every site), and the
resulting tree stands in the single-point relation `oneRewriteMod` with the
original: exactly one catalog rewrite at exactly one node, never two sites
combined. -/
theorem single_point_mutation (parse : String → Option PyModule)
    (unparse : PyModule → Option String) (source : String)
    (L : Option (List Nat)) (m : Mutant)
    (hm : m ∈ apply_mutations parse unparse source L) :
    ∃ tree, parse source = some tree ∧
      ∃ s ∈ collect_sites tree L,
        unparse (apply_site tree s.mid s.mutation) = some m.code ∧
        oneRewriteMod tree (apply_site tree s.mid s.mutation) = true := by
  unfold apply_mutations at hm
  cases hp : parse source with
  | none => rw [hp] at hm; simp at hm
  | some tree =>
      rw [hp] at hm
      refine ⟨tree, rfl, ?_⟩
      unfold mutateTree at hm
      rw [List.mem_filterMap] at hm
      obtain ⟨s, hs, hmap⟩ := hm
      refine ⟨s, hs, ?_, collect_sites_oneRewrite tree L s hs⟩
      cases hu : unparse (apply_site tree s.mid s.mutation) with
      | none => rw [hu] at hmap; simp at hmap
      | some code =>
          rw [hu] at hmap
          simp only [Option.map_some', Option.some.injEq] at hmap
          subst hmap
          rfl

/-- C6 witness: the single mutant of `"x = 1 + 2\n"` with no line
restriction. -/
theorem single_point_mutation_witness :
    ∃ tree, parseX1 "x = 1 + 2\n" = some tree ∧
      ∃ s ∈ collect_sites tree none,
        unparse0 (apply_site tree s.mid s.mutation) = some "" ∧
        oneRewriteMod tree (apply_site tree s.mid s.mutation) = true :=
  single_point_mutation parseX1 unparse0 "x = 1 + 2\n" none
    { code := "", line := 1, operator := "arithmetic", description := "Add -> Sub",
      suggestion := "Add assertion checking the computed result value" }
    (by decide)

/-! ## test_mutant (src/mutagate.py lines 30-44) -/

/-- The file system visible to the pipeline: a map from path to file
content (`none` = file absent). -/
def FS : Type := String → Option String

/-- `shutil.copy2(src, dst)`: afterwards `dst` holds the content of `src`. -/
def fsCopy (fs : FS) (src dst : String) : FS :=
  fun q => if q = dst then fs src else fs q

/-- `open(p, "w").write(content)`: afterwards `p` holds `content`. -/
def fsWrite (fs : FS) (p content : String) : FS :=
  fun q => if q = p then some content else fs q

/-- `shutil.move(src, dst)`: afterwards `dst` holds the old content of `src`
and `src` is gone. -/
def fsMove (fs : FS) (src dst : String) : FS :=
  fun q => if q = dst then fs src else if q = src then none else fs q

/-- The observable outcome of the single `subprocess.run(test_cmd,
shell=True, ..., timeout=60)` call: the spawned shell completed with an exit
status (`shell=True` turns a missing command into exit status 127 of the
shell, not an exception), or the 60-second timeout fired
(`subprocess.TimeoutExpired`), or the invocation itself raised some other
exception. -/
inductive RunOutcome where
  | completed (returncode : Int)
  | timedOut
  | raised (e : String)
deriving DecidableEq

/-- `test_mutant(project_dir, mutant_code, original_path, test_cmd)`:
back up the file, overwrite it with the mutant, run the test command, and in
`finally` restore the backup on every exit path.  Returns the classification
(`Except.ok killed`, or `Except.error e` when a non-timeout exception
propagates out of the `try`) together with the resulting file system. -/
def test_mutant (fs : FS) (mutant_code original_path : String)
    (outcome : RunOutcome) : Except String Bool × FS :=
  let backup := original_path ++ ".mutagate.bak"
  let fs1 := fsCopy fs original_path backup
  let fs2 := fsWrite fs1 original_path mutant_code
  let result : Except String Bool :=
    match outcome with
    | .completed rc => .ok (rc != 0)
    | .timedOut => .ok true
    | .raised e => .error e
  let fs3 := fsMove fs2 backup original_path
  (result, fs3)

/-- C3: whatever the outcome of the test invocation (completion, timeout, or
a propagating exception), the `finally` block moves the backup over the
substituted file, so the evaluated file's content afterwards is byte-identical
to its content before. -/
theorem restore_after_evaluation (fs : FS) (mc path : String) (oc : RunOutcome)
    (c : String) (h : fs path = some c) :
    (test_mutant fs mc path oc).2 path = some c := by
  have hne : ¬(path ++ ".mutagate.bak" = path) := by
    intro he
    have hl := congrArg String.length he
    have h13 : (".mutagate.bak" : String).length = 13 := rfl
    rw [String.length_append] at hl
    omega
  unfold test_mutant fsMove fsWrite fsCopy
  simp [hne, h]

/-- The concrete file system of the C3 witness. -/
def fs0 : FS := fun q => if q = "calc.py" then some "x = 1 + 2\n" else none

/-- C3 witness: a concrete evaluation (timeout outcome) on a one-file file
system leaves the file's content unchanged. -/
theorem restore_after_evaluation_witness :
    fs0 "calc.py" = some "x = 1 + 2\n" ∧
    (test_mutant fs0 "x = 1 - 2" "calc.py" .timedOut).2 "calc.py" = some "x = 1 + 2\n" :=
  ⟨rfl, restore_after_evaluation fs0 "x = 1 - 2" "calc.py" .timedOut "x = 1 + 2\n" rfl⟩

/-- C5: the killed flag is `true` exactly on a nonzero exit status or a
timeout, and `false` exactly on an on-time zero exit status. -/
theorem killed_iff_nonzero_or_timeout (fs : FS) (mc path : String) (oc : RunOutcome) :
    ((test_mutant fs mc path oc).1 = .ok true ↔
      oc = .timedOut ∨ ∃ rc, oc = .completed rc ∧ rc ≠ 0) ∧
    ((test_mutant fs mc path oc).1 = .ok false ↔ oc = .completed 0) := by
  cases oc with
  | completed rc =>
      constructor
      · simp [test_mutant]
      · simp [test_mutant, bne]
  | timedOut => simp [test_mutant]
  | raised e => simp [test_mutant]

/-- C4 counterexample: when the test command cannot be started (command not
found), the shell spawned by `shell=True` exits with status 127; the
evaluation classifies the mutant as killed through the ordinary
nonzero-exit rule (`returncode != 0`) instead of surfacing a fatal error. -/
theorem harness_error_counterexample :
    (test_mutant fs0 "mut" "calc.py" (.completed 127)).1 = .ok true := rfl

/-- C4 (amended): a test command that cannot be started (e.g. command not
found) makes the `shell=True` subprocess complete with a nonzero shell exit
status such as 127, and the evaluation classifies the mutant as killed via
the nonzero-exit rule; only an exception other than `TimeoutExpired` raised
by the invocation itself propagates out of the evaluation as a fatal error
(with the file still restored by `finally`). -/
theorem harness_error_amended (fs : FS) (mc path : String) :
    (test_mutant fs mc path (.completed 127)).1 = .ok true ∧
    (∀ e, (test_mutant fs mc path (.raised e)).1 = .error e) :=
  ⟨rfl, fun _ => rfl⟩

/-! ## run_mutation_testing (src/mutagate.py lines 47-72) -/

/-- One element of the `results` list (line 63): the mutant dict merged with
the file path and the killed flag, `{**m, "file": fpath, "killed": killed}`. -/
structure EvalResult where
  code : String
  line : Nat
  operator : String
  description : String
  suggestion : String
  file : String
  killed : Bool
deriving DecidableEq

/-- The report dict returned by `run_mutation_testing`.  The two float
fields are modelled as rationals. -/
structure Report where
  status : String
  total : Nat
  killed : Nat
  survived : Nat
  kill_rate : ℚ
  threshold : ℚ
  survivors : List EvalResult
deriving DecidableEq

/-- Python's `round` to an integer: round half to even (banker's rounding),
on the exact rational value. -/
def roundHalfToEven (q : ℚ) : ℤ :=
  let n : ℤ := ⌊q⌋
  let r : ℚ := q - (n : ℚ)
  if r < 1 / 2 then n
  else if 1 / 2 < r then n + 1
  else if n % 2 = 0 then n else n + 1

/-- `round(q, 1)`: one decimal place. -/
def round1 (q : ℚ) : ℚ :=
  (roundHalfToEven (q * 10) : ℚ) / 10

/-- The kill rate of line 66, hoisted into a definition:
`rate = (killed_n / total * 100) if total else 100.0`. -/
def exactRate (results : List EvalResult) : ℚ :=
  if results.length = 0 then 100
  else ((results.filter fun r => r.killed).length : ℚ) / (results.length : ℚ) * 100

/-- Lines 65-72: totals, kill rate, survivors and the final report dict.
`status` compares the unrounded `rate` with the threshold; only the reported
`kill_rate` field is rounded (`round(rate, 1)`). -/
def mkReport (results : List EvalResult) (threshold : ℚ) : Report :=
  let total := results.length
  let killed_n := (results.filter fun r => r.killed).length
  let rate := exactRate results
  let survivors := results.filter fun r => !r.killed
  { status := if threshold ≤ rate then "pass" else "fail",
    total := total, killed := killed_n, survived := survivors.length,
    kill_rate := round1 rate, threshold := threshold, survivors := survivors }

/-- Lines 53-55: the short-circuit report for an empty change map. -/
def emptyChangesReport (threshold : ℚ) : Report :=
  { status := "pass", total := 0, killed := 0, survived := 0,
    kill_rate := 100, threshold := threshold, survivors := [] }

/-- The accumulated `results` of the per-file loop (lines 56-63), in
evaluation order.  Reading each file, generating its mutants and running the
test command are I/O against external collaborators; the loop body for one
`(fpath, lines)` entry is abstracted as `evalFile fpath lines` (a missing
file contributes the empty list). -/
def pipelineResults (changes : List (String × List Nat))
    (evalFile : String → List Nat → List EvalResult) : List EvalResult :=
  changes.flatMap fun p => evalFile p.1 p.2

/-- `run_mutation_testing`: short-circuit on an empty change map
(`if not changes`), otherwise aggregate the accumulated results. -/
def run_mutation_testing (changes : List (String × List Nat))
    (evalFile : String → List Nat → List EvalResult) (threshold : ℚ) : Report :=
  if changes.isEmpty then emptyChangesReport threshold
  else mkReport (pipelineResults changes evalFile) threshold

/-- Splitting a list by a predicate splits its length. -/
theorem filter_length_split {α : Type} (p : α → Bool) (l : List α) :
    (l.filter p).length + (l.filter fun a => !p a).length = l.length := by
  induction l with
  | nil => rfl
  | cons a l ih =>
      cases hp : p a <;> simp [List.filter_cons, hp, ← ih] <;> omega

/-- `round(100.0, 1) = 100.0`. -/
theorem round1_hundred : round1 100 = 100 := by
  unfold round1 roundHalfToEven
  have h1000 : ((100 : ℚ) * 10) = 1000 := by norm_num
  have hfl : ⌊(1000 : ℚ)⌋ = 1000 := by
    rw [Int.floor_eq_iff]
    norm_num
  rw [h1000, hfl]
  rw [if_pos (by norm_num)]
  norm_num

/-- One evaluation result with a chosen killed flag, for concrete reports. -/
def sampleResult (k : Bool) : EvalResult :=
  { code := "", line := 2, operator := "arithmetic", description := "Add -> Sub",
    suggestion := "Add assertion checking the computed result value",
    file := "calc.py", killed := k }

/-- Three evaluation results, two of them killed: exact kill rate 200/3. -/
def sampleResults : List EvalResult :=
  [sampleResult true, sampleResult true, sampleResult false]

/-- A per-file evaluation oracle producing the three sample results. -/
def evalFile3 : String → List Nat → List EvalResult := fun _ _ => sampleResults

/-- C1 counterexample: with 2 of 3 mutants killed and threshold 66.7, the
rounded kill rate reported in the report equals the threshold
(`round(200/3, 1) = 66.7`), yet the status is `fail`, because line 72
compares the unrounded rate `200/3 < 66.7` with the threshold.  (Checked
against Python floats: `round(2/3*100, 1) >= 66.7` is `True` while
`2/3*100 >= 66.7` is `False`.)  This refutes "status is pass iff the
rounded rate is ≥ the threshold". -/
theorem threshold_rounding_counterexample :
    (run_mutation_testing [("calc.py", [2])] evalFile3 (667 / 10)).status = "fail" ∧
    (run_mutation_testing [("calc.py", [2])] evalFile3 (667 / 10)).threshold ≤
      (run_mutation_testing [("calc.py", [2])] evalFile3 (667 / 10)).kill_rate := by
  have hrate : exactRate sampleResults = 200 / 3 := by
    have hlen : sampleResults.length = 3 := rfl
    have hk : (sampleResults.filter fun r => r.killed).length = 2 := rfl
    unfold exactRate
    rw [hlen, hk]
    norm_num
  have h2000 : ((200 : ℚ) / 3) * 10 = 2000 / 3 := by norm_num
  have hfl : ⌊(2000 / 3 : ℚ)⌋ = 666 := by
    rw [Int.floor_eq_iff]
    norm_num
  have hround : round1 ((200 : ℚ) / 3) = 667 / 10 := by
    unfold round1 roundHalfToEven
    rw [h2000, hfl]
    rw [if_neg (by norm_num), if_pos (by norm_num)]
    norm_num
  have hrun : run_mutation_testing [("calc.py", [2])] evalFile3 (667 / 10) =
      mkReport sampleResults (667 / 10) := by
    unfold run_mutation_testing
    rw [if_neg (by simp)]
    rfl
  rw [hrun]
  constructor
  · show (if (667 : ℚ) / 10 ≤ exactRate sampleResults then "pass" else "fail") = "fail"
    rw [hrate]
    rw [if_neg (by norm_num)]
  · show (667 : ℚ) / 10 ≤ round1 (exactRate sampleResults)
    rw [hrate, hround]

/-- C1 (amended): the status is `pass` iff the exact, unrounded kill rate
`killed/total*100` (100.0 when total is 0) is ≥ the threshold; the report's
`kill_rate` field holds that rate rounded to one decimal place, so a rounded
rate equal to the threshold can come with status `fail` (see the
counterexample); an empty change map short-circuits to status `pass` with
kill rate 100.0, and a zero-mutant run has exact kill rate 100.0. -/
theorem pass_iff_exact_rate (changes : List (String × List Nat))
    (evalFile : String → List Nat → List EvalResult) (threshold : ℚ) :
    (changes ≠ [] →
      ((run_mutation_testing changes evalFile threshold).status = "pass" ↔
        threshold ≤ exactRate (pipelineResults changes evalFile))) ∧
    (changes = [] → (run_mutation_testing changes evalFile threshold).status = "pass") ∧
    (run_mutation_testing changes evalFile threshold).kill_rate =
      round1 (exactRate (pipelineResults changes evalFile)) ∧
    (pipelineResults changes evalFile = [] →
      exactRate (pipelineResults changes evalFile) = 100) := by
  cases changes with
  | nil =>
      refine ⟨fun hne => absurd rfl hne, fun _ => rfl, ?_, fun he => by rw [he]; simp [exactRate]⟩
      show (100 : ℚ) = round1 (exactRate (pipelineResults [] evalFile))
      have hp : pipelineResults [] evalFile = [] := rfl
      rw [hp]
      have he : exactRate [] = 100 := by simp [exactRate]
      rw [he, round1_hundred]
  | cons hd tl =>
      have hrun : run_mutation_testing (hd :: tl) evalFile threshold =
          mkReport (pipelineResults (hd :: tl) evalFile) threshold := by
        unfold run_mutation_testing
        rw [if_neg (by simp)]
      rw [hrun]
      refine ⟨fun _ => ?_, fun he => absurd he (by simp), rfl, fun he => by rw [he]; simp [exactRate]⟩
      show (if threshold ≤ exactRate (pipelineResults (hd :: tl) evalFile) then "pass" else "fail")
          = "pass" ↔ threshold ≤ exactRate (pipelineResults (hd :: tl) evalFile)
      by_cases hc : threshold ≤ exactRate (pipelineResults (hd :: tl) evalFile)
      · simp [hc]
      · simp [hc]

/-- C1 witness: the amended iff applied to a concrete nonempty change map. -/
theorem pass_iff_exact_rate_witness :
    (run_mutation_testing [("calc.py", [2])] evalFile3 80).status = "pass" ↔
      (80 : ℚ) ≤ exactRate (pipelineResults [("calc.py", [2])] evalFile3) :=
  (pass_iff_exact_rate [("calc.py", [2])] evalFile3 80).1 (by simp)

/-- C10: every report the pipeline returns satisfies
`killed + survived = total`; its survivors list is exactly the evaluation
results whose killed flag is false, in evaluation order; and `survived` is
the length of that list. -/
theorem report_counts_and_survivors (changes : List (String × List Nat))
    (evalFile : String → List Nat → List EvalResult) (threshold : ℚ) :
    (run_mutation_testing changes evalFile threshold).killed +
        (run_mutation_testing changes evalFile threshold).survived =
      (run_mutation_testing changes evalFile threshold).total ∧
    (run_mutation_testing changes evalFile threshold).survivors =
      (pipelineResults changes evalFile).filter (fun x => !x.killed) ∧
    (run_mutation_testing changes evalFile threshold).survived =
      (run_mutation_testing changes evalFile threshold).survivors.length := by
  cases changes with
  | nil => exact ⟨rfl, rfl, rfl⟩
  | cons hd tl =>
      have hrun : run_mutation_testing (hd :: tl) evalFile threshold =
          mkReport (pipelineResults (hd :: tl) evalFile) threshold := by
        unfold run_mutation_testing
        rw [if_neg (by simp)]
      rw [hrun]
      refine ⟨?_, rfl, rfl⟩
      exact filter_length_split (fun r => r.killed) (pipelineResults (hd :: tl) evalFile)
